import Mathlib

/-!
Verification of the `_MinimalWLS` weighted-least-squares kernel
(`statsmodels/regression/_tools.py`) against its specification.

The solver is shallowly embedded over `ℝ` in exact arithmetic: vectors are
`Fin n → ℝ`, matrices are `Matrix (Fin n) (Fin k) ℝ`.  The numpy primitives
used by the source (`np.linalg.pinv`, `np.linalg.qr`, `np.linalg.solve`,
`np.linalg.inv`, `np.linalg.lstsq`, `np.sqrt`) are external library calls, so
they are modelled from their documented contracts:

* `npPinv` is the Moore-Penrose pseudoinverse, characterised by the four
  Penrose equations (which determine it uniquely);
* `npQR` is some reduced QR factorisation (orthonormal columns, upper
  triangular factor) when one exists;
* `npSolve` / `npInv` fail with a `LinAlgError` exactly on singular input;
* `npLstsq` returns the minimum-norm least-squares solution, `pinv(A) · b`;
* `np.sqrt` is `Real.sqrt`.

Fallible numpy calls surface as `Except LinAlgError`, mirroring numpy's
`LinAlgError` exceptions, which `_MinimalWLS` propagates unchanged.

A second, untyped model (`npInitWLS`, over plain lists) captures the shape
behaviour of the constructor, including numpy's 1-d broadcasting rules, so
that claims about dimension-mismatched input can be stated.
-/

open Matrix
open Classical

/-- Error raised by the numpy linear-algebra primitives (`LinAlgError`). -/
inductive LinAlgError where
  | singularMatrix
deriving DecidableEq

/-- The weight argument of `_MinimalWLS.__init__`: either a scalar or a
per-observation vector, mirroring the `np.isscalar(weights)` test in the
source. -/
inductive Weights (n : ℕ) where
  | scalar (c : ℝ)
  | vector (w : Fin n → ℝ)

/-- The weight that multiplies row `i`: the scalar itself for scalar weights
(uniform scaling), the `i`-th entry for vector weights (row-wise scaling).
This is what numpy broadcasting of `weights` against row `i` produces. -/
def Weights.atRow {n : ℕ} : Weights n → Fin n → ℝ
  | .scalar c, _ => c
  | .vector w, i => w i

/-- Multiply every weight by the constant `c` (used to state the
weight-rescaling claim). -/
def Weights.scaleBy {n : ℕ} (c : ℝ) : Weights n → Weights n
  | .scalar a => .scalar (c * a)
  | .vector w => .vector fun i => c * w i

/-- The namedtuple `_MinimalWLSModel` of the source: one field, `weights`. -/
structure _MinimalWLSModel (n : ℕ) where
  weights : Weights n

/-- The namedtuple `_MinimalWLSResults` of the source, with the same fields.
`normalized_cov_params` is `Option`-valued because the source leaves it as
`None` when the covariance flag is false. -/
structure _MinimalWLSResults (n k : ℕ) where
  params : Fin k → ℝ
  normalized_cov_params : Option (Matrix (Fin k) (Fin k) ℝ)
  resid : Fin n → ℝ
  model : _MinimalWLSModel n
  fittedvalues : Fin n → ℝ
  scale : ℝ

/-- The `_MinimalWLS` instance state: the attributes set by `__init__`. -/
structure _MinimalWLS (n k : ℕ) where
  endog : Fin n → ℝ
  exog : Matrix (Fin n) (Fin k) ℝ
  weights : Weights n
  wendog : Fin n → ℝ
  wexog : Matrix (Fin n) (Fin k) ℝ

/-- `B` satisfies the four Penrose equations for `A`; this characterises the
Moore-Penrose pseudoinverse computed by `np.linalg.pinv`. -/
def IsMPInv {n k : ℕ} (A : Matrix (Fin n) (Fin k) ℝ)
    (B : Matrix (Fin k) (Fin n) ℝ) : Prop :=
  A * B * A = A ∧ B * A * B = B ∧ (A * B)ᵀ = A * B ∧ (B * A)ᵀ = B * A

/-- Model of `np.linalg.pinv`: the (unique) matrix satisfying the Penrose
equations when one exists. -/
noncomputable def npPinv {n k : ℕ} (A : Matrix (Fin n) (Fin k) ℝ) :
    Matrix (Fin k) (Fin n) ℝ :=
  if h : ∃ B, IsMPInv A B then h.choose else 0

/-- `R` is upper triangular. -/
def UpperTriangular {k : ℕ} (R : Matrix (Fin k) (Fin k) ℝ) : Prop :=
  ∀ i j : Fin k, (j : ℕ) < (i : ℕ) → R i j = 0

/-- `(Q, R)` is a reduced QR factorisation of `A`: orthonormal columns,
upper triangular `R` and `A = Q * R`, as produced by `np.linalg.qr`. -/
def IsQRFact {n k : ℕ} (A Q : Matrix (Fin n) (Fin k) ℝ)
    (R : Matrix (Fin k) (Fin k) ℝ) : Prop :=
  Qᵀ * Q = 1 ∧ UpperTriangular R ∧ A = Q * R

/-- Model of `np.linalg.qr` (reduced mode): some QR factorisation of `A`
when one exists. -/
noncomputable def npQR {n k : ℕ} (A : Matrix (Fin n) (Fin k) ℝ) :
    Matrix (Fin n) (Fin k) ℝ × Matrix (Fin k) (Fin k) ℝ :=
  if h : ∃ QR : Matrix (Fin n) (Fin k) ℝ × Matrix (Fin k) (Fin k) ℝ,
      IsQRFact A QR.1 QR.2 then h.choose else (0, 0)

/-- Model of `np.linalg.solve`: solves the square system, raising
`LinAlgError` exactly when the matrix is singular. -/
noncomputable def npSolve {k : ℕ} (A : Matrix (Fin k) (Fin k) ℝ)
    (b : Fin k → ℝ) : Except LinAlgError (Fin k → ℝ) :=
  if IsUnit A.det then .ok (A⁻¹ *ᵥ b) else .error .singularMatrix

/-- Model of `np.linalg.inv`: raises `LinAlgError` exactly when singular. -/
noncomputable def npInv {k : ℕ} (A : Matrix (Fin k) (Fin k) ℝ) :
    Except LinAlgError (Matrix (Fin k) (Fin k) ℝ) :=
  if IsUnit A.det then .ok A⁻¹ else .error .singularMatrix

/-- Model of `np.linalg.lstsq` (first return value): the minimum-norm
least-squares solution of `A x ≈ b`, i.e. `pinv(A) · b`. -/
noncomputable def npLstsq {n k : ℕ} (A : Matrix (Fin n) (Fin k) ℝ)
    (b : Fin n → ℝ) : Fin k → ℝ :=
  npPinv A *ᵥ b

/-- `_MinimalWLS.__init__`: stores the data and weights and precomputes
`w_half = np.sqrt(weights)`, `wendog = w_half * endog` and
`wexog = w_half * exog` (scalar weights) or `w_half[:, None] * exog`
(vector weights).  No input validation is performed. -/
noncomputable def _MinimalWLS.init {n k : ℕ} (endog : Fin n → ℝ)
    (exog : Matrix (Fin n) (Fin k) ℝ) (weights : Weights n) :
    _MinimalWLS n k :=
  { endog := endog
    exog := exog
    weights := weights
    wendog := fun i => Real.sqrt (weights.atRow i) * endog i
    wexog :=
      match weights with
      | .scalar c => fun i j => Real.sqrt c * exog i j
      | .vector w => fun i j => Real.sqrt (w i) * exog i j }

/-- The method-dispatch part of `_MinimalWLS.fit`: the
`if method == 'pinv' / elif method == 'qr' / else` chain that produces
`params` and `normalized_cov_params`.  Any other method name falls through
to the `np.linalg.lstsq` branch, as in the source. -/
noncomputable def _MinimalWLS.paramsCov {n k : ℕ} (self : _MinimalWLS n k)
    (cov : Bool) (method : String) :
    Except LinAlgError ((Fin k → ℝ) × Option (Matrix (Fin k) (Fin k) ℝ)) :=
  if method = "pinv" then
    let pinv_wexog := npPinv self.wexog
    Except.ok (pinv_wexog *ᵥ self.wendog,
      if cov then some (pinv_wexog * pinv_wexogᵀ) else none)
  else if method = "qr" then
    let Q := (npQR self.wexog).1
    let R := (npQR self.wexog).2
    (npSolve R (Qᵀ *ᵥ self.wendog)).bind fun params =>
      (if cov then (npInv (Rᵀ * R)).map some else Except.ok none).map
        fun ncp => (params, ncp)
  else
    let params := npLstsq self.wexog self.wendog
    (if cov then (npInv (self.wexogᵀ * self.wexog)).map some
     else Except.ok none).map fun ncp => (params, ncp)

/-- `_MinimalWLS.fit`: dispatches on `method` (defaults in the source:
`cov=True`, `method='pinv'`), then computes the common tail of the source on
the obtained `params`:
`fitted_values = exog · params`, `resid = endog - fitted_values`,
`wresid = wendog - wexog · params`,
`df_resid = wexog.shape[0] - wexog.shape[1]` and
`scale = wresid · wresid / df_resid`, and bundles the results. -/
noncomputable def _MinimalWLS.fit {n k : ℕ} (self : _MinimalWLS n k)
    (cov : Bool) (method : String) :
    Except LinAlgError (_MinimalWLSResults n k) :=
  (self.paramsCov cov method).map fun pc =>
    let params := pc.1
    let fitted_values := self.exog *ᵥ params
    let resid := fun i => self.endog i - fitted_values i
    let wresid := fun i => self.wendog i - (self.wexog *ᵥ params) i
    let scale := (wresid ⬝ᵥ wresid) / ((n : ℝ) - (k : ℝ))
    { params := params
      normalized_cov_params := pc.2
      resid := resid
      model := ⟨self.weights⟩
      fittedvalues := fitted_values
      scale := scale }

/-! ### Untyped (shape-level) model of the constructor

Dimension mismatches are not representable in the `Fin`-indexed embedding, so
the constructor is additionally modelled over plain lists, with numpy's 1-d
broadcasting rules.  `none` models a `ValueError` raised by a numpy
primitive; the component itself performs no checks. -/

/-- Weight argument of the untyped constructor model. -/
inductive NpWeights where
  | scalar (c : ℝ)
  | vector (w : List ℝ)

/-- The untyped `_MinimalWLS` instance state. -/
structure NpMinimalWLS where
  endog : List ℝ
  exog : List (List ℝ)
  weights : NpWeights
  wendog : List ℝ
  wexog : List (List ℝ)

/-- numpy elementwise product of two 1-d arrays with broadcasting:
equal lengths multiply pointwise, a length-1 operand broadcasts, and any
other length combination raises (`none`). -/
def bmul1 (a b : List ℝ) : Option (List ℝ) :=
  if a.length = b.length then some (List.zipWith (fun x y => x * y) a b)
  else if a.length = 1 then some (b.map fun x => a.headI * x)
  else if b.length = 1 then some (a.map fun x => x * b.headI)
  else none

/-- numpy product `w[:, None] * X` of a column vector against a 2-d array,
with row broadcasting: equal row counts scale row-wise, a single weight or a
single row broadcasts, anything else raises (`none`). -/
def bmulCol (w : List ℝ) (X : List (List ℝ)) : Option (List (List ℝ)) :=
  if w.length = X.length then
    some (List.zipWith (fun c row => row.map fun x => c * x) w X)
  else if w.length = 1 then some (X.map fun row => row.map fun x => w.headI * x)
  else if X.length = 1 then some (w.map fun c => X.headI.map fun x => c * x)
  else none

/-- Untyped model of `_MinimalWLS.__init__`: `w_half = np.sqrt(weights)`
(total, even on negative weights), then the two broadcast products of
the source.  `none` arises only from the numpy broadcast primitives; the
constructor adds no checks of its own. -/
noncomputable def npInitWLS (endog : List ℝ) (exog : List (List ℝ))
    (weights : NpWeights) : Option NpMinimalWLS :=
  match weights with
  | .scalar c =>
      let w_half := Real.sqrt c
      some ⟨endog, exog, weights, endog.map (fun x => w_half * x),
        exog.map fun row => row.map fun x => w_half * x⟩
  | .vector w =>
      let w_half := w.map Real.sqrt
      (bmul1 w_half endog).bind fun wendog =>
        (bmulCol w_half exog).map fun wexog =>
          ⟨endog, exog, weights, wendog, wexog⟩

/-! ### Concrete instances used by witnesses and counterexamples -/

/-- A 2-observation, 1-regressor solver state (unit weights). -/
noncomputable def wlsA : _MinimalWLS 2 1 :=
  ⟨![1, 1], !![(1 : ℝ); 1], .scalar 1, ![1, 1], !![(1 : ℝ); 1]⟩

/-- A 1-observation, 1-regressor solver state (unit weights). -/
noncomputable def wlsI : _MinimalWLS 1 1 :=
  ⟨![1], !![(1 : ℝ)], .scalar 1, ![1], !![(1 : ℝ)]⟩

/-- A full-rank 3×2 solver state whose design has orthonormal columns. -/
noncomputable def wlsFR : _MinimalWLS 3 2 :=
  ⟨![1, 2, 3], !![(1 : ℝ), 0; 0, 1; 0, 0], .scalar 1,
    ![1, 2, 3], !![(1 : ℝ), 0; 0, 1; 0, 0]⟩

/-- A rank-deficient 2×2 solver state (duplicated column). -/
noncomputable def wlsRD : _MinimalWLS 2 2 :=
  ⟨![1, 1], !![(1 : ℝ), 1; 1, 1], .scalar 1, ![1, 1], !![(1 : ℝ), 1; 1, 1]⟩

/-- Response used by the weight-rescaling counterexample. -/
noncomputable def yW : Fin 2 → ℝ := ![0, 2]

/-- Design used by the weight-rescaling counterexample. -/
noncomputable def xW : Matrix (Fin 2) (Fin 1) ℝ := !![1; 1]

/-- The pinv fit result of `wlsA`, written out numerically (the lemma
`fit_wlsA` below shows `wlsA.fit true "pinv"` returns exactly this). -/
noncomputable def resA : _MinimalWLSResults 2 1 :=
  { params := ![1]
    normalized_cov_params := some !![(1 : ℝ) / 2]
    resid := ![0, 0]
    model := ⟨.scalar 1⟩
    fittedvalues := ![1, 1]
    scale := 0 }

/-- Response of the spec's concrete scenario. -/
noncomputable def ySix : Fin 3 → ℝ := ![1, 2, 2]

/-- Design of the spec's concrete scenario. -/
noncomputable def xSix : Matrix (Fin 3) (Fin 2) ℝ := !![1, 0; 1, 1; 1, 2]

/-! ## General lemmas: Moore-Penrose pseudoinverse -/

/-- The Penrose equations determine the pseudoinverse uniquely. -/
theorem IsMPInv.unique {n k : ℕ} {A : Matrix (Fin n) (Fin k) ℝ}
    {B C : Matrix (Fin k) (Fin n) ℝ} (hB : IsMPInv A B) (hC : IsMPInv A C) :
    B = C := by
  obtain ⟨hB1, hB2, hB3, hB4⟩ := hB
  obtain ⟨hC1, hC2, hC3, hC4⟩ := hC
  have h1 : A * B = (A * C) * (A * B) := by
    calc A * B = (A * C * A) * B := by rw [hC1]
      _ = (A * C) * (A * B) := Matrix.mul_assoc _ _ _
  have h2 : A * C = (A * B) * (A * C) := by
    calc A * C = (A * B * A) * C := by rw [hB1]
      _ = (A * B) * (A * C) := Matrix.mul_assoc _ _ _
  have hEF : A * B = A * C := by
    calc A * B = (A * B)ᵀ := hB3.symm
      _ = ((A * C) * (A * B))ᵀ := by rw [← h1]
      _ = (A * B)ᵀ * (A * C)ᵀ := Matrix.transpose_mul _ _
      _ = (A * B) * (A * C) := by rw [hB3, hC3]
      _ = A * C := h2.symm
  have g1 : B * A = (B * A) * (C * A) := by
    calc B * A = B * (A * C * A) := by rw [hC1]
      _ = (B * A) * (C * A) := by simp only [Matrix.mul_assoc]
  have g2 : C * A = (C * A) * (B * A) := by
    calc C * A = C * (A * B * A) := by rw [hB1]
      _ = (C * A) * (B * A) := by simp only [Matrix.mul_assoc]
  have hGH : B * A = C * A := by
    calc B * A = (B * A)ᵀ := hB4.symm
      _ = ((B * A) * (C * A))ᵀ := by rw [← g1]
      _ = (C * A)ᵀ * (B * A)ᵀ := Matrix.transpose_mul _ _
      _ = (C * A) * (B * A) := by rw [hB4, hC4]
      _ = C * A := g2.symm
  calc B = B * A * B := hB2.symm
    _ = C * A * B := by rw [hGH]
    _ = C * (A * B) := Matrix.mul_assoc _ _ _
    _ = C * (A * C) := by rw [hEF]
    _ = C * A * C := (Matrix.mul_assoc _ _ _).symm
    _ = C := hC2

/-- `npPinv` returns the Penrose pseudoinverse whenever one exists. -/
theorem npPinv_eq {n k : ℕ} {A : Matrix (Fin n) (Fin k) ℝ}
    {B : Matrix (Fin k) (Fin n) ℝ} (h : IsMPInv A B) : npPinv A = B := by
  have hex : ∃ C, IsMPInv A C := ⟨B, h⟩
  rw [npPinv, dif_pos hex]
  exact IsMPInv.unique hex.choose_spec h

/-- A left inverse with symmetric `A * B` is the Penrose pseudoinverse. -/
theorem isMPInv_of_left_inv {n k : ℕ} {A : Matrix (Fin n) (Fin k) ℝ}
    {B : Matrix (Fin k) (Fin n) ℝ} (h1 : B * A = 1) (h2 : (A * B)ᵀ = A * B) :
    IsMPInv A B := by
  refine ⟨?_, ?_, h2, ?_⟩
  · rw [Matrix.mul_assoc, h1, Matrix.mul_one]
  · rw [h1, Matrix.one_mul]
  · rw [h1, Matrix.transpose_one]

/-- Under full column rank (invertible Gram matrix), the pseudoinverse is
`(Aᵀ A)⁻¹ Aᵀ`, the ordinary-least-squares normal-equations matrix. -/
theorem isMPInv_fullRank {n k : ℕ} {A : Matrix (Fin n) (Fin k) ℝ}
    (h : IsUnit (Aᵀ * A).det) : IsMPInv A ((Aᵀ * A)⁻¹ * Aᵀ) := by
  have h1 : ((Aᵀ * A)⁻¹ * Aᵀ) * A = 1 := by
    rw [Matrix.mul_assoc]; exact Matrix.nonsing_inv_mul _ h
  refine isMPInv_of_left_inv h1 ?_
  have hsym : ((Aᵀ * A)⁻¹)ᵀ = (Aᵀ * A)⁻¹ := by
    rw [Matrix.transpose_nonsing_inv, Matrix.transpose_mul,
      Matrix.transpose_transpose]
  rw [Matrix.transpose_mul, Matrix.transpose_mul, Matrix.transpose_transpose,
    hsym, Matrix.mul_assoc]

/-- `npPinv` under full column rank is the normal-equations matrix. -/
theorem npPinv_fullRank {n k : ℕ} {A : Matrix (Fin n) (Fin k) ℝ}
    (h : IsUnit (Aᵀ * A).det) : npPinv A = (Aᵀ * A)⁻¹ * Aᵀ :=
  npPinv_eq (isMPInv_fullRank h)

/-- The Penrose pseudoinverse scales inversely with the matrix. -/
theorem IsMPInv.smul {n k : ℕ} {A : Matrix (Fin n) (Fin k) ℝ}
    {B : Matrix (Fin k) (Fin n) ℝ} (h : IsMPInv A B) {c : ℝ} (hc : c ≠ 0) :
    IsMPInv (c • A) (c⁻¹ • B) := by
  obtain ⟨h1, h2, h3, h4⟩ := h
  have key : (c • A) * (c⁻¹ • B) = A * B := by
    rw [Matrix.smul_mul, Matrix.mul_smul, smul_smul, mul_inv_cancel₀ hc,
      one_smul]
  have key2 : (c⁻¹ • B) * (c • A) = B * A := by
    rw [Matrix.smul_mul, Matrix.mul_smul, smul_smul, inv_mul_cancel₀ hc,
      one_smul]
  refine ⟨?_, ?_, ?_, ?_⟩
  · rw [key, Matrix.mul_smul, h1]
  · rw [key2, Matrix.mul_smul, h2]
  · rw [key]; exact h3
  · rw [key2]; exact h4

/-- A matrix has a Penrose pseudoinverse iff its nonzero multiple does. -/
theorem exists_mpinv_smul_iff {n k : ℕ} {A : Matrix (Fin n) (Fin k) ℝ}
    {c : ℝ} (hc : c ≠ 0) :
    (∃ B, IsMPInv (c • A) B) ↔ ∃ B, IsMPInv A B := by
  constructor
  · rintro ⟨B, hB⟩
    have h := hB.smul (inv_ne_zero hc)
    rw [smul_smul, inv_mul_cancel₀ hc, one_smul, inv_inv] at h
    exact ⟨c • B, h⟩
  · rintro ⟨B, hB⟩
    exact ⟨c⁻¹ • B, hB.smul hc⟩

/-- `npPinv` of a rescaled matrix is the inversely rescaled `npPinv`. -/
theorem npPinv_smul {n k : ℕ} {A : Matrix (Fin n) (Fin k) ℝ} {c : ℝ}
    (hc : c ≠ 0) : npPinv (c • A) = c⁻¹ • npPinv A := by
  by_cases hex : ∃ B, IsMPInv A B
  · obtain ⟨B, hB⟩ := hex
    rw [npPinv_eq hB, npPinv_eq (hB.smul hc)]
  · have hex' : ¬∃ B, IsMPInv (c • A) B := by
      rw [exists_mpinv_smul_iff hc]; exact hex
    rw [npPinv, dif_neg hex', npPinv, dif_neg hex, smul_zero]

/-! ## General lemmas: QR factorisation -/

/-- A QR factorisation reproduces the Gram matrix: `Aᵀ A = Rᵀ R`. -/
theorem IsQRFact.gram {n k : ℕ} {A Q : Matrix (Fin n) (Fin k) ℝ}
    {R : Matrix (Fin k) (Fin k) ℝ} (h : IsQRFact A Q R) :
    Aᵀ * A = Rᵀ * R := by
  obtain ⟨hQ, _, hA⟩ := h
  rw [hA, Matrix.transpose_mul, Matrix.mul_assoc,
    ← Matrix.mul_assoc Qᵀ Q R, hQ, Matrix.one_mul]

/-- If the Gram matrix is invertible, the triangular factor is too. -/
theorem IsQRFact.det_unit {n k : ℕ} {A Q : Matrix (Fin n) (Fin k) ℝ}
    {R : Matrix (Fin k) (Fin k) ℝ} (h : IsQRFact A Q R)
    (hA : IsUnit (Aᵀ * A).det) : IsUnit R.det := by
  have hg : (Aᵀ * A).det = R.det * R.det := by
    rw [h.gram, Matrix.det_mul, Matrix.det_transpose]
  rw [hg] at hA
  exact isUnit_of_mul_isUnit_left hA

/-- The QR solve `R⁻¹ Qᵀ` coincides with the normal-equations matrix
`(Aᵀ A)⁻¹ Aᵀ` under full column rank. -/
theorem IsQRFact.rinv_qt {n k : ℕ} {A Q : Matrix (Fin n) (Fin k) ℝ}
    {R : Matrix (Fin k) (Fin k) ℝ} (h : IsQRFact A Q R)
    (hA : IsUnit (Aᵀ * A).det) : R⁻¹ * Qᵀ = (Aᵀ * A)⁻¹ * Aᵀ := by
  have hR := h.det_unit hA
  have hRT : IsUnit Rᵀ.det := by rwa [Matrix.det_transpose]
  have key : (Aᵀ * A)⁻¹ * Aᵀ = R⁻¹ * Qᵀ := by
    rw [h.gram]
    conv_lhs => rw [h.2.2]
    rw [Matrix.transpose_mul, Matrix.mul_inv_rev, Matrix.mul_assoc,
      ← Matrix.mul_assoc Rᵀ⁻¹ Rᵀ Qᵀ, Matrix.nonsing_inv_mul _ hRT,
      Matrix.one_mul]
  exact key.symm

/-- `npQR` returns a QR factorisation whenever one exists. -/
theorem npQR_spec {n k : ℕ} {A : Matrix (Fin n) (Fin k) ℝ}
    (h : ∃ QR : Matrix (Fin n) (Fin k) ℝ × Matrix (Fin k) (Fin k) ℝ,
      IsQRFact A QR.1 QR.2) : IsQRFact A (npQR A).1 (npQR A).2 := by
  rw [npQR, dif_pos h]
  exact h.choose_spec

/-- For a column-rank-deficient matrix, whatever `npQR` returns has a
singular triangular factor. -/
theorem npQR_det_not_unit {n k : ℕ} {A : Matrix (Fin n) (Fin k) ℝ}
    {v : Fin k → ℝ} (hv : v ≠ 0) (hker : A *ᵥ v = 0) :
    ¬IsUnit ((npQR A).2).det := by
  have hkpos : Nonempty (Fin k) := by
    have : ∃ i, v i ≠ 0 := by
      by_contra hno
      push_neg at hno
      exact hv (funext fun i => hno i)
    obtain ⟨i, _⟩ := this
    exact ⟨i⟩
  by_cases hex : ∃ QR : Matrix (Fin n) (Fin k) ℝ × Matrix (Fin k) (Fin k) ℝ,
      IsQRFact A QR.1 QR.2
  · have hfact := npQR_spec hex
    have hkernel : ∀ (Q : Matrix (Fin n) (Fin k) ℝ)
        (R : Matrix (Fin k) (Fin k) ℝ), IsQRFact A Q R → R *ᵥ v = 0 := by
      intro Q R hQR
      obtain ⟨hQ, _, hA⟩ := hQR
      have hQA : Qᵀ * A = R := by
        rw [hA, ← Matrix.mul_assoc, hQ, Matrix.one_mul]
      rw [← hQA, ← Matrix.mulVec_mulVec, hker, Matrix.mulVec_zero]
    have hRv : (npQR A).2 *ᵥ v = 0 := hkernel _ _ hfact
    have hdet : ((npQR A).2).det = 0 :=
      Matrix.exists_mulVec_eq_zero_iff.mp ⟨v, hv, hRv⟩
    rw [hdet]
    exact not_isUnit_zero
  · have h2 : (npQR A).2 = 0 := by rw [npQR, dif_neg hex]
    rw [h2, Matrix.det_zero hkpos]
    exact not_isUnit_zero

/-! ## Reduction lemmas for the fit branches -/

/-- The pinv branch of the dispatch, computed. -/
theorem paramsCov_pinv {n k : ℕ} (s : _MinimalWLS n k) (cov : Bool) :
    s.paramsCov cov "pinv" = .ok (npPinv s.wexog *ᵥ s.wendog,
      if cov then some (npPinv s.wexog * (npPinv s.wexog)ᵀ) else none) := by
  rw [_MinimalWLS.paramsCov, if_pos rfl]

/-- The qr branch of the dispatch, unfolded. -/
theorem paramsCov_qr {n k : ℕ} (s : _MinimalWLS n k) (cov : Bool) :
    s.paramsCov cov "qr" =
      (npSolve (npQR s.wexog).2 ((npQR s.wexog).1ᵀ *ᵥ s.wendog)).bind
        fun params =>
          (if cov then (npInv ((npQR s.wexog).2ᵀ * (npQR s.wexog).2)).map some
           else Except.ok none).map fun ncp => (params, ncp) := by
  rw [_MinimalWLS.paramsCov, if_neg (by decide), if_pos rfl]

/-- Any method other than pinv and qr takes the lstsq branch. -/
theorem paramsCov_other {n k : ℕ} (s : _MinimalWLS n k) (cov : Bool)
    {m : String} (h1 : m ≠ "pinv") (h2 : m ≠ "qr") :
    s.paramsCov cov m =
      (if cov then (npInv (s.wexogᵀ * s.wexog)).map some
       else Except.ok none).map
        fun ncp => (npLstsq s.wexog s.wendog, ncp) := by
  rw [_MinimalWLS.paramsCov, if_neg h1, if_neg h2]

/-- When the dispatch succeeds, `fit` packages its output with the common
tail of the source: fitted values on unscaled data, residuals on unscaled
data, and scale from weighted residuals over `n - k`. -/
theorem fit_of_paramsCov_ok {n k : ℕ} {s : _MinimalWLS n k} {cov : Bool}
    {m : String} {p : Fin k → ℝ} {ncp : Option (Matrix (Fin k) (Fin k) ℝ)}
    (h : s.paramsCov cov m = .ok (p, ncp)) :
    s.fit cov m = .ok
      { params := p
        normalized_cov_params := ncp
        resid := fun i => s.endog i - (s.exog *ᵥ p) i
        model := ⟨s.weights⟩
        fittedvalues := s.exog *ᵥ p
        scale := ((fun i => s.wendog i - (s.wexog *ᵥ p) i) ⬝ᵥ
          fun i => s.wendog i - (s.wexog *ᵥ p) i) / ((n : ℝ) - (k : ℝ)) } := by
  rw [_MinimalWLS.fit, h]
  rfl

/-- When the dispatch fails, `fit` propagates the error unchanged. -/
theorem fit_of_paramsCov_error {n k : ℕ} {s : _MinimalWLS n k} {cov : Bool}
    {m : String} {e : LinAlgError} (h : s.paramsCov cov m = .error e) :
    s.fit cov m = .error e := by
  rw [_MinimalWLS.fit, h]
  rfl

/-! ## Least-squares optimality of the pseudoinverse solution -/

/-- A sum of squares is nonnegative. -/
theorem dot_self_nonneg {m : ℕ} (v : Fin m → ℝ) : 0 ≤ v ⬝ᵥ v :=
  Finset.sum_nonneg fun i _ => mul_self_nonneg (v i)

/-- The pseudoinverse residual is orthogonal to the column space. -/
theorem mp_residual_orth {n k : ℕ} {A : Matrix (Fin n) (Fin k) ℝ}
    {B : Matrix (Fin k) (Fin n) ℝ} (h : IsMPInv A B) (b : Fin n → ℝ)
    (z : Fin k → ℝ) : (b - A *ᵥ (B *ᵥ b)) ⬝ᵥ (A *ᵥ z) = 0 := by
  have key : Aᵀ * (A * B) = Aᵀ := by
    calc Aᵀ * (A * B) = Aᵀ * (A * B)ᵀ := by rw [h.2.2.1]
      _ = (A * B * A)ᵀ := by rw [Matrix.transpose_mul (A * B) A]
      _ = Aᵀ := by rw [h.1]
  have hAt : Aᵀ *ᵥ (b - A *ᵥ (B *ᵥ b)) = 0 := by
    rw [Matrix.mulVec_sub, Matrix.mulVec_mulVec, Matrix.mulVec_mulVec,
      Matrix.mul_assoc, key, sub_self]
  calc (b - A *ᵥ (B *ᵥ b)) ⬝ᵥ (A *ᵥ z)
      = (Aᵀ *ᵥ (b - A *ᵥ (B *ᵥ b))) ⬝ᵥ z := by
        rw [Matrix.dotProduct_mulVec, Matrix.mulVec_transpose]
    _ = 0 := by rw [hAt, Matrix.zero_dotProduct]

/-- Decomposition of the squared residual at an arbitrary point into the
pseudoinverse residual part and the column-space part. -/
theorem mp_residual_decomp {n k : ℕ} {A : Matrix (Fin n) (Fin k) ℝ}
    {B : Matrix (Fin k) (Fin n) ℝ} (h : IsMPInv A B) (b : Fin n → ℝ)
    (x : Fin k → ℝ) :
    (b - A *ᵥ x) ⬝ᵥ (b - A *ᵥ x) =
      (b - A *ᵥ (B *ᵥ b)) ⬝ᵥ (b - A *ᵥ (B *ᵥ b)) +
      (A *ᵥ (B *ᵥ b - x)) ⬝ᵥ (A *ᵥ (B *ᵥ b - x)) := by
  have hsplit : b - A *ᵥ x =
      (b - A *ᵥ (B *ᵥ b)) + A *ᵥ (B *ᵥ b - x) := by
    rw [Matrix.mulVec_sub]
    abel
  rw [hsplit, Matrix.add_dotProduct, Matrix.dotProduct_add,
    Matrix.dotProduct_add,
    Matrix.dotProduct_comm (A *ᵥ (B *ᵥ b - x)) (b - A *ᵥ (B *ᵥ b)),
    mp_residual_orth h b (B *ᵥ b - x)]
  ring

/-- `pinv(A) · b` minimises the squared residual. -/
theorem mp_ls_min {n k : ℕ} {A : Matrix (Fin n) (Fin k) ℝ}
    {B : Matrix (Fin k) (Fin n) ℝ} (h : IsMPInv A B) (b : Fin n → ℝ)
    (x : Fin k → ℝ) :
    (b - A *ᵥ (B *ᵥ b)) ⬝ᵥ (b - A *ᵥ (B *ᵥ b)) ≤
      (b - A *ᵥ x) ⬝ᵥ (b - A *ᵥ x) := by
  rw [mp_residual_decomp h b x]
  exact le_add_of_nonneg_right (dot_self_nonneg _)

/-- Among all least-squares minimisers, `pinv(A) · b` has minimal norm. -/
theorem mp_min_norm {n k : ℕ} {A : Matrix (Fin n) (Fin k) ℝ}
    {B : Matrix (Fin k) (Fin n) ℝ} (h : IsMPInv A B) (b : Fin n → ℝ)
    (x : Fin k → ℝ)
    (heq : (b - A *ᵥ x) ⬝ᵥ (b - A *ᵥ x) =
      (b - A *ᵥ (B *ᵥ b)) ⬝ᵥ (b - A *ᵥ (B *ᵥ b))) :
    (B *ᵥ b) ⬝ᵥ (B *ᵥ b) ≤ x ⬝ᵥ x := by
  have hzero : (A *ᵥ (B *ᵥ b - x)) ⬝ᵥ (A *ᵥ (B *ᵥ b - x)) = 0 := by
    have := mp_residual_decomp h b x
    rw [heq] at this
    linarith
  have hAzero : A *ᵥ (B *ᵥ b - x) = 0 :=
    Matrix.dotProduct_self_eq_zero.mp hzero
  have hcross : (B *ᵥ b) ⬝ᵥ (x - B *ᵥ b) = 0 := by
    have hp : B *ᵥ b = (B * A) *ᵥ (B *ᵥ b) := by
      rw [Matrix.mulVec_mulVec, h.2.1]
    have hBA : (B * A) *ᵥ (x - B *ᵥ b) = 0 := by
      have : A *ᵥ (x - B *ᵥ b) = 0 := by
        have hneg : x - B *ᵥ b = -(B *ᵥ b - x) := by abel
        rw [hneg, Matrix.mulVec_neg, hAzero, neg_zero]
      rw [← Matrix.mulVec_mulVec, this, Matrix.mulVec_zero]
    calc (B *ᵥ b) ⬝ᵥ (x - B *ᵥ b)
        = ((B * A) *ᵥ (B *ᵥ b)) ⬝ᵥ (x - B *ᵥ b) := by rw [← hp]
      _ = (x - B *ᵥ b) ⬝ᵥ ((B * A) *ᵥ (B *ᵥ b)) :=
          Matrix.dotProduct_comm _ _
      _ = ((B * A)ᵀ *ᵥ (x - B *ᵥ b)) ⬝ᵥ (B *ᵥ b) := by
          rw [Matrix.dotProduct_mulVec, Matrix.mulVec_transpose]
      _ = ((B * A) *ᵥ (x - B *ᵥ b)) ⬝ᵥ (B *ᵥ b) := by rw [h.2.2.2]
      _ = 0 := by rw [hBA, Matrix.zero_dotProduct]
  have hdecomp : x ⬝ᵥ x = (B *ᵥ b) ⬝ᵥ (B *ᵥ b) +
      (x - B *ᵥ b) ⬝ᵥ (x - B *ᵥ b) := by
    have hx : x = B *ᵥ b + (x - B *ᵥ b) := by abel
    calc x ⬝ᵥ x = (B *ᵥ b + (x - B *ᵥ b)) ⬝ᵥ (B *ᵥ b + (x - B *ᵥ b)) := by
          rw [← hx]
      _ = (B *ᵥ b) ⬝ᵥ (B *ᵥ b) + (B *ᵥ b) ⬝ᵥ (x - B *ᵥ b) +
          ((x - B *ᵥ b) ⬝ᵥ (B *ᵥ b) + (x - B *ᵥ b) ⬝ᵥ (x - B *ᵥ b)) := by
          rw [Matrix.add_dotProduct, Matrix.dotProduct_add,
            Matrix.dotProduct_add]
      _ = (B *ᵥ b) ⬝ᵥ (B *ᵥ b) + (x - B *ᵥ b) ⬝ᵥ (x - B *ᵥ b) := by
          rw [hcross, Matrix.dotProduct_comm (x - B *ᵥ b) (B *ᵥ b), hcross]
          ring
  rw [hdecomp]
  exact le_add_of_nonneg_right (dot_self_nonneg _)

/-! ## Evaluation lemmas for concrete instances -/

/-- The pseudoinverse of the 2×1 all-ones design. -/
theorem npPinv_wlsA : npPinv wlsA.wexog = !![(1 : ℝ) / 2, 1 / 2] := by
  apply npPinv_eq
  apply isMPInv_of_left_inv
  · ext i j
    fin_cases i <;> fin_cases j <;>
      simp [wlsA, Matrix.mul_apply, Fin.sum_univ_succ, Matrix.one_apply] <;>
      norm_num
  · ext i j
    fin_cases i <;> fin_cases j <;>
      simp [wlsA, Matrix.mul_apply, Fin.sum_univ_succ] <;> norm_num

/-- Full evaluation of the pinv fit of `wlsA`. -/
theorem fit_wlsA : wlsA.fit true "pinv" = .ok resA := by
  have hparams : npPinv wlsA.wexog *ᵥ wlsA.wendog = ![1] := by
    rw [npPinv_wlsA]
    funext i
    fin_cases i <;>
      simp [wlsA, Matrix.mulVec, Matrix.dotProduct, Fin.sum_univ_succ] <;>
      norm_num
  have hncp : npPinv wlsA.wexog * (npPinv wlsA.wexog)ᵀ = !![(1 : ℝ) / 2] := by
    rw [npPinv_wlsA]
    ext i j
    fin_cases i
    fin_cases j
    simp [Matrix.mul_apply, Fin.sum_univ_succ]
    norm_num
  rw [fit_of_paramsCov_ok (paramsCov_pinv wlsA true), hparams, hncp]
  congr 1
  unfold resA
  congr 1
  · funext i
    fin_cases i <;>
      simp [wlsA, Matrix.mulVec, Matrix.dotProduct, Fin.sum_univ_succ]
  · funext i
    fin_cases i <;>
      simp [wlsA, Matrix.mulVec, Matrix.dotProduct, Fin.sum_univ_succ]
  · simp [wlsA, Matrix.mulVec, Matrix.dotProduct, Fin.sum_univ_succ]

/-! ## Claims -/

/-- Claim C1: for every constructed solver, `fit` with method `pinv`
returns `params = pinv(wX) · wy`, and `normalized_cov_params` equals
`pinv(wX) · pinv(wX)ᵀ` exactly when the covariance flag is set. -/
theorem claim1_fit_pinv {n k : ℕ} (s : _MinimalWLS n k) (cov : Bool) :
    ∃ r, s.fit cov "pinv" = .ok r ∧
      r.params = npPinv s.wexog *ᵥ s.wendog ∧
      r.normalized_cov_params =
        if cov then some (npPinv s.wexog * (npPinv s.wexog)ᵀ) else none :=
  ⟨_, fit_of_paramsCov_ok (paramsCov_pinv s cov), rfl, rfl⟩

/-- Claim C2: for every solver state, every method and covariance flag,
a successful fit satisfies `fittedvalues = exog · params` (unscaled data),
`resid = endog - fittedvalues` (unscaled data), and
`scale = wresid · wresid / (n - k)` computed from the weighted residuals
`wresid = wendog - wexog · params`. -/
theorem claim2_fit_tail {n k : ℕ} (s : _MinimalWLS n k) (cov : Bool)
    (m : String) (r : _MinimalWLSResults n k) (h : s.fit cov m = .ok r) :
    r.fittedvalues = s.exog *ᵥ r.params ∧
    r.resid = (fun i => s.endog i - r.fittedvalues i) ∧
    r.scale = ((fun i => s.wendog i - (s.wexog *ᵥ r.params) i) ⬝ᵥ
      fun i => s.wendog i - (s.wexog *ᵥ r.params) i) /
      ((n : ℝ) - (k : ℝ)) := by
  cases hpc : s.paramsCov cov m with
  | error e =>
      rw [fit_of_paramsCov_error hpc] at h
      exact Except.noConfusion h
  | ok pc =>
      obtain ⟨p, ncp⟩ := pc
      rw [fit_of_paramsCov_ok hpc] at h
      injection h with h'
      subst h'
      exact ⟨rfl, rfl, rfl⟩

/-- Witness for C2 at the concrete solver `wlsA` and its pinv result. -/
theorem claim2_fit_tail_witness :
    resA.fittedvalues = wlsA.exog *ᵥ resA.params ∧
    resA.resid = (fun i => wlsA.endog i - resA.fittedvalues i) ∧
    resA.scale = ((fun i => wlsA.wendog i - (wlsA.wexog *ᵥ resA.params) i) ⬝ᵥ
      fun i => wlsA.wendog i - (wlsA.wexog *ᵥ resA.params) i) /
      (((2 : ℕ) : ℝ) - ((1 : ℕ) : ℝ)) :=
  claim2_fit_tail wlsA true "pinv" resA fit_wlsA

/-- Claim C3: construction stores the weights and derives
`wendog i = sqrt(weight of row i) * endog i` and
`wexog i j = sqrt(weight of row i) * exog i j`, where the row weight is the
scalar itself for scalar weights (uniform scaling) and the row entry for
vector weights (row-wise scaling); the original data is stored unchanged. -/
theorem claim3_init_scaling {n k : ℕ} (y : Fin n → ℝ)
    (X : Matrix (Fin n) (Fin k) ℝ) (w : Weights n) :
    (_MinimalWLS.init y X w).weights = w ∧
    (_MinimalWLS.init y X w).endog = y ∧
    (_MinimalWLS.init y X w).exog = X ∧
    (∀ i, (_MinimalWLS.init y X w).wendog i = Real.sqrt (w.atRow i) * y i) ∧
    (∀ i j,
      (_MinimalWLS.init y X w).wexog i j = Real.sqrt (w.atRow i) * X i j) := by
  refine ⟨rfl, rfl, rfl, fun i => rfl, ?_⟩
  cases w with
  | scalar c => exact fun i j => rfl
  | vector wv => exact fun i j => rfl

/-- Claim C9: every method string other than pinv and qr silently takes the
lstsq branch, so `fit` returns exactly what `method = "lstsq"` returns; no
unknown-method error exists. -/
theorem claim9_unknown_method {n k : ℕ} (s : _MinimalWLS n k) (cov : Bool)
    (m : String) (h1 : m ≠ "pinv") (h2 : m ≠ "qr") :
    s.fit cov m = s.fit cov "lstsq" := by
  rw [_MinimalWLS.fit, _MinimalWLS.fit, paramsCov_other s cov h1 h2,
    paramsCov_other s cov (by decide) (by decide)]

/-- Witness for C9: a misspelled method name behaves as lstsq. -/
theorem claim9_unknown_method_witness :
    wlsI.fit true "foo" = wlsI.fit true "lstsq" :=
  claim9_unknown_method wlsI true "foo" (by decide) (by decide)

/-! ## Branch results with the covariance flag off, and the qr error case -/

/-- pinv branch, covariance off. -/
theorem paramsCov_pinv_nocov {n k : ℕ} (s : _MinimalWLS n k) :
    s.paramsCov false "pinv" = .ok (npPinv s.wexog *ᵥ s.wendog, none) := by
  rw [paramsCov_pinv]
  simp

/-- lstsq branch, covariance off: no matrix is inverted, so it always
succeeds. -/
theorem paramsCov_other_nocov {n k : ℕ} (s : _MinimalWLS n k) {m : String}
    (h1 : m ≠ "pinv") (h2 : m ≠ "qr") :
    s.paramsCov false m = .ok (npLstsq s.wexog s.wendog, none) := by
  rw [paramsCov_other s false h1 h2]
  simp [Except.map]

/-- qr branch, covariance off, with invertible triangular factor. -/
theorem paramsCov_qr_nocov_ok {n k : ℕ} (s : _MinimalWLS n k)
    (hu : IsUnit ((npQR s.wexog).2).det) :
    s.paramsCov false "qr" = .ok
      (((npQR s.wexog).2)⁻¹ *ᵥ ((npQR s.wexog).1ᵀ *ᵥ s.wendog), none) := by
  rw [paramsCov_qr]
  simp only [npSolve]
  rw [if_pos hu]
  simp [Except.bind, Except.map]

/-- qr branch with singular triangular factor: the solve raises and the
error propagates, for either covariance flag. -/
theorem paramsCov_qr_err {n k : ℕ} (s : _MinimalWLS n k) (cov : Bool)
    (hu : ¬IsUnit ((npQR s.wexog).2).det) :
    s.paramsCov cov "qr" = .error .singularMatrix := by
  rw [paramsCov_qr]
  simp only [npSolve]
  rw [if_neg hu]
  rfl

/-- A QR factorisation of the 1×1 identity design exists. -/
theorem wlsI_qr_exists :
    ∃ QR : Matrix (Fin 1) (Fin 1) ℝ × Matrix (Fin 1) (Fin 1) ℝ,
      IsQRFact wlsI.wexog QR.1 QR.2 := by
  refine ⟨(!![(1 : ℝ)], !![(1 : ℝ)]), ?_, ?_, ?_⟩
  · ext i j
    fin_cases i
    fin_cases j
    simp [Matrix.mul_apply, Fin.sum_univ_succ, Matrix.one_apply]
  · intro i j hij
    have hi := i.isLt
    have hj := j.isLt
    omega
  · ext i j
    fin_cases i
    fin_cases j
    simp [wlsI, Matrix.mul_apply, Fin.sum_univ_succ]

/-- The triangular factor produced by `npQR` on `wlsI` is invertible. -/
theorem npQR_wlsI_unit : IsUnit ((npQR wlsI.wexog).2).det := by
  refine (npQR_spec wlsI_qr_exists).det_unit ?_
  have hgram : wlsI.wexogᵀ * wlsI.wexog = 1 := by
    ext i j
    fin_cases i
    fin_cases j
    simp [wlsI, Matrix.mul_apply, Fin.sum_univ_succ, Matrix.one_apply]
  rw [hgram, Matrix.det_one]
  exact isUnit_one

/-- Claim C10: with the covariance flag off, every successful fit carries
`normalized_cov_params = none`; moreover no covariance-path inversion can
fail: every non-qr method always succeeds, and the qr method succeeds
whenever its triangular solve does (so the only possible failure is the
solve itself, not the covariance inversion). -/
theorem claim10_nocov {n k : ℕ} (s : _MinimalWLS n k) (m : String) :
    (∀ r, s.fit false m = .ok r → r.normalized_cov_params = none) ∧
    (m ≠ "qr" → ∃ r, s.fit false m = .ok r) ∧
    (IsUnit ((npQR s.wexog).2).det → ∃ r, s.fit false "qr" = .ok r) := by
  refine ⟨?_, ?_, ?_⟩
  · intro r h
    by_cases hm1 : m = "pinv"
    · subst hm1
      rw [fit_of_paramsCov_ok (paramsCov_pinv_nocov s)] at h
      injection h with h'
      rw [← h']
    · by_cases hm2 : m = "qr"
      · subst hm2
        by_cases hu : IsUnit ((npQR s.wexog).2).det
        · rw [fit_of_paramsCov_ok (paramsCov_qr_nocov_ok s hu)] at h
          injection h with h'
          rw [← h']
        · rw [fit_of_paramsCov_error (paramsCov_qr_err s false hu)] at h
          exact Except.noConfusion h
      · rw [fit_of_paramsCov_ok (paramsCov_other_nocov s hm1 hm2)] at h
        injection h with h'
        rw [← h']
  · intro hm2
    by_cases hm1 : m = "pinv"
    · subst hm1
      exact ⟨_, fit_of_paramsCov_ok (paramsCov_pinv_nocov s)⟩
    · exact ⟨_, fit_of_paramsCov_ok (paramsCov_other_nocov s hm1 hm2)⟩
  · intro hu
    exact ⟨_, fit_of_paramsCov_ok (paramsCov_qr_nocov_ok s hu)⟩

/-- Witness for C10: both the lstsq and the qr paths succeed with the
covariance flag off on a concrete solver. -/
theorem claim10_nocov_witness :
    (∃ r, wlsI.fit false "lstsq" = .ok r) ∧
    (∃ r, wlsI.fit false "qr" = .ok r) :=
  ⟨(claim10_nocov wlsI "lstsq").2.1 (by decide),
   (claim10_nocov wlsI "lstsq").2.2 npQR_wlsI_unit⟩

/-- The Gram matrix of the `wlsFR` design is the identity. -/
theorem wlsFR_gram : wlsFR.wexogᵀ * wlsFR.wexog = 1 := by
  ext i j
  fin_cases i <;> fin_cases j <;>
    simp [wlsFR, Matrix.mul_apply, Fin.sum_univ_succ, Matrix.one_apply]

/-- The `wlsFR` design has an invertible Gram matrix. -/
theorem wlsFR_gram_unit : IsUnit (wlsFR.wexogᵀ * wlsFR.wexog).det := by
  rw [wlsFR_gram, Matrix.det_one]
  exact isUnit_one

/-- The `wlsFR` design admits a QR factorisation (itself times the
identity, since its columns are orthonormal). -/
theorem wlsFR_qr_exists :
    ∃ QR : Matrix (Fin 3) (Fin 2) ℝ × Matrix (Fin 2) (Fin 2) ℝ,
      IsQRFact wlsFR.wexog QR.1 QR.2 := by
  refine ⟨(wlsFR.wexog, 1), wlsFR_gram, ?_, (Matrix.mul_one _).symm⟩
  intro i j hij
  have : i ≠ j := by
    rintro rfl
    exact lt_irrefl _ hij
  exact Matrix.one_apply_ne this

/-- Claim C4: under the full-column-rank hypothesis (invertible Gram
matrix) and existence of a QR factorisation, the three methods all succeed
and compute the same coefficient vector, equal to the ordinary-least-squares
normal-equations solution `(wXᵀ wX)⁻¹ wXᵀ · wy` (exact arithmetic). -/
theorem claim4_methods_agree {n k : ℕ} (s : _MinimalWLS n k) (cov : Bool)
    (hA : IsUnit (s.wexogᵀ * s.wexog).det)
    (hqr : ∃ QR : Matrix (Fin n) (Fin k) ℝ × Matrix (Fin k) (Fin k) ℝ,
      IsQRFact s.wexog QR.1 QR.2) :
    ∃ r₁ r₂ r₃,
      s.fit cov "pinv" = .ok r₁ ∧ s.fit cov "qr" = .ok r₂ ∧
      s.fit cov "lstsq" = .ok r₃ ∧
      r₁.params = ((s.wexogᵀ * s.wexog)⁻¹ * s.wexogᵀ) *ᵥ s.wendog ∧
      r₂.params = r₁.params ∧ r₃.params = r₁.params := by
  have hfact := npQR_spec hqr
  have hRu : IsUnit ((npQR s.wexog).2).det := hfact.det_unit hA
  have hgram_eq : (npQR s.wexog).2ᵀ * (npQR s.wexog).2 =
      s.wexogᵀ * s.wexog := hfact.gram.symm
  have hGu : IsUnit ((npQR s.wexog).2ᵀ * (npQR s.wexog).2).det := by
    rw [hgram_eq]
    exact hA
  have hpinv_val : npPinv s.wexog = (s.wexogᵀ * s.wexog)⁻¹ * s.wexogᵀ :=
    npPinv_fullRank hA
  have hqr_pc : s.paramsCov cov "qr" = .ok
      (((npQR s.wexog).2)⁻¹ *ᵥ ((npQR s.wexog).1ᵀ *ᵥ s.wendog),
        if cov then some (((npQR s.wexog).2ᵀ * (npQR s.wexog).2)⁻¹)
        else none) := by
    rw [paramsCov_qr]
    simp only [npSolve, npInv]
    rw [if_pos hRu, if_pos hGu]
    cases cov <;> simp [Except.bind, Except.map]
  have hl_pc : s.paramsCov cov "lstsq" = .ok (npLstsq s.wexog s.wendog,
      if cov then some ((s.wexogᵀ * s.wexog)⁻¹) else none) := by
    rw [paramsCov_other s cov (by decide) (by decide)]
    simp only [npInv]
    rw [if_pos hA]
    cases cov <;> simp [Except.map]
  refine ⟨_, _, _, fit_of_paramsCov_ok (paramsCov_pinv s cov),
    fit_of_paramsCov_ok hqr_pc, fit_of_paramsCov_ok hl_pc, ?_, ?_, ?_⟩
  · show npPinv s.wexog *ᵥ s.wendog = _
    rw [hpinv_val]
  · show ((npQR s.wexog).2)⁻¹ *ᵥ ((npQR s.wexog).1ᵀ *ᵥ s.wendog) =
      npPinv s.wexog *ᵥ s.wendog
    rw [hpinv_val, Matrix.mulVec_mulVec, hfact.rinv_qt hA]
  · show npLstsq s.wexog s.wendog = npPinv s.wexog *ᵥ s.wendog
    rfl

/-- Witness for C4 at the concrete full-rank solver `wlsFR`. -/
theorem claim4_methods_agree_witness :
    ∃ r₁ r₂ r₃,
      wlsFR.fit true "pinv" = .ok r₁ ∧ wlsFR.fit true "qr" = .ok r₂ ∧
      wlsFR.fit true "lstsq" = .ok r₃ ∧
      r₁.params = ((wlsFR.wexogᵀ * wlsFR.wexog)⁻¹ * wlsFR.wexogᵀ) *ᵥ
        wlsFR.wendog ∧
      r₂.params = r₁.params ∧ r₃.params = r₁.params :=
  claim4_methods_agree wlsFR true wlsFR_gram_unit wlsFR_qr_exists

/-- Claim C7: on a column-rank-deficient scaled design (some nonzero `v`
with `wX · v = 0`), the qr method fails with the singular-matrix
linear-algebra error, while the pinv method succeeds and returns the
least-squares solution of minimum norm (here with the pseudoinverse
existence supplied as a hypothesis, discharged concretely in the
witness). -/
theorem claim7_rank_deficient {n k : ℕ} (s : _MinimalWLS n k) (cov : Bool)
    (v : Fin k → ℝ) (hv : v ≠ 0) (hker : s.wexog *ᵥ v = 0)
    (hMP : ∃ B, IsMPInv s.wexog B) :
    s.fit cov "qr" = .error .singularMatrix ∧
    ∃ r, s.fit cov "pinv" = .ok r ∧
      (∀ x, (s.wendog - s.wexog *ᵥ r.params) ⬝ᵥ
          (s.wendog - s.wexog *ᵥ r.params) ≤
        (s.wendog - s.wexog *ᵥ x) ⬝ᵥ (s.wendog - s.wexog *ᵥ x)) ∧
      (∀ x, (s.wendog - s.wexog *ᵥ x) ⬝ᵥ (s.wendog - s.wexog *ᵥ x) =
          (s.wendog - s.wexog *ᵥ r.params) ⬝ᵥ
            (s.wendog - s.wexog *ᵥ r.params) →
        r.params ⬝ᵥ r.params ≤ x ⬝ᵥ x) := by
  obtain ⟨B, hB⟩ := hMP
  have hpv : npPinv s.wexog = B := npPinv_eq hB
  constructor
  · exact fit_of_paramsCov_error
      (paramsCov_qr_err s cov (npQR_det_not_unit hv hker))
  · have hmin : ∀ x, (s.wendog - s.wexog *ᵥ (npPinv s.wexog *ᵥ s.wendog)) ⬝ᵥ
        (s.wendog - s.wexog *ᵥ (npPinv s.wexog *ᵥ s.wendog)) ≤
        (s.wendog - s.wexog *ᵥ x) ⬝ᵥ (s.wendog - s.wexog *ᵥ x) := by
      intro x
      rw [hpv]
      exact mp_ls_min hB s.wendog x
    have hnorm : ∀ x,
        (s.wendog - s.wexog *ᵥ x) ⬝ᵥ (s.wendog - s.wexog *ᵥ x) =
          (s.wendog - s.wexog *ᵥ (npPinv s.wexog *ᵥ s.wendog)) ⬝ᵥ
            (s.wendog - s.wexog *ᵥ (npPinv s.wexog *ᵥ s.wendog)) →
        (npPinv s.wexog *ᵥ s.wendog) ⬝ᵥ (npPinv s.wexog *ᵥ s.wendog) ≤
          x ⬝ᵥ x := by
      intro x hx
      rw [hpv] at hx ⊢
      exact mp_min_norm hB s.wendog x hx
    exact ⟨_, fit_of_paramsCov_ok (paramsCov_pinv s cov), hmin, hnorm⟩

/-- The duplicated-column design of `wlsRD` has an explicit Penrose
pseudoinverse. -/
theorem wlsRD_mpinv :
    IsMPInv wlsRD.wexog !![(1 : ℝ) / 4, 1 / 4; 1 / 4, 1 / 4] := by
  refine ⟨?_, ?_, ?_, ?_⟩ <;>
    · ext i j
      fin_cases i <;> fin_cases j <;>
        norm_num [wlsRD, Matrix.mul_apply, Fin.sum_univ_succ]

/-- Witness for C7 at the duplicated-column solver `wlsRD`. -/
theorem claim7_rank_deficient_witness :
    wlsRD.fit true "qr" = .error .singularMatrix ∧
    ∃ r, wlsRD.fit true "pinv" = .ok r ∧
      (∀ x, (wlsRD.wendog - wlsRD.wexog *ᵥ r.params) ⬝ᵥ
          (wlsRD.wendog - wlsRD.wexog *ᵥ r.params) ≤
        (wlsRD.wendog - wlsRD.wexog *ᵥ x) ⬝ᵥ
          (wlsRD.wendog - wlsRD.wexog *ᵥ x)) ∧
      (∀ x, (wlsRD.wendog - wlsRD.wexog *ᵥ x) ⬝ᵥ
          (wlsRD.wendog - wlsRD.wexog *ᵥ x) =
          (wlsRD.wendog - wlsRD.wexog *ᵥ r.params) ⬝ᵥ
            (wlsRD.wendog - wlsRD.wexog *ᵥ r.params) →
        r.params ⬝ᵥ r.params ≤ x ⬝ᵥ x) := by
  refine claim7_rank_deficient wlsRD true ![1, -1] ?_ ?_ ⟨_, wlsRD_mpinv⟩
  · intro h
    have h0 := congrFun h 0
    norm_num at h0
  · funext i
    fin_cases i <;>
      · simp [wlsRD, Matrix.mulVec, Matrix.dotProduct, Fin.sum_univ_succ]

/-! ## Behaviour under rescaled weights -/

/-- Scaling all weights by `c ≥ 0` scales the stored design by `sqrt c`. -/
theorem init_scaleBy_wexog {n k : ℕ} (y : Fin n → ℝ)
    (X : Matrix (Fin n) (Fin k) ℝ) (w : Weights n) {c : ℝ} (hc : 0 ≤ c) :
    (_MinimalWLS.init y X (w.scaleBy c)).wexog =
      Real.sqrt c • (_MinimalWLS.init y X w).wexog := by
  cases w with
  | scalar a =>
      ext i j
      show Real.sqrt (c * a) * X i j = Real.sqrt c * (Real.sqrt a * X i j)
      rw [Real.sqrt_mul hc, mul_assoc]
  | vector wv =>
      ext i j
      show Real.sqrt (c * wv i) * X i j =
        Real.sqrt c * (Real.sqrt (wv i) * X i j)
      rw [Real.sqrt_mul hc, mul_assoc]

/-- Scaling all weights by `c ≥ 0` scales the stored response by `sqrt c`. -/
theorem init_scaleBy_wendog {n k : ℕ} (y : Fin n → ℝ)
    (X : Matrix (Fin n) (Fin k) ℝ) (w : Weights n) {c : ℝ} (hc : 0 ≤ c) :
    (_MinimalWLS.init y X (w.scaleBy c)).wendog =
      fun i => Real.sqrt c * (_MinimalWLS.init y X w).wendog i := by
  funext i
  cases w with
  | scalar a =>
      show Real.sqrt (c * a) * y i = Real.sqrt c * (Real.sqrt a * y i)
      rw [Real.sqrt_mul hc, mul_assoc]
  | vector wv =>
      show Real.sqrt (c * wv i) * y i =
        Real.sqrt c * (Real.sqrt (wv i) * y i)
      rw [Real.sqrt_mul hc, mul_assoc]

/-- Pulling a common factor out of a dot product of scaled vectors. -/
theorem dot_mul_left {m : ℕ} (a : ℝ) (d e : Fin m → ℝ) :
    (fun i => a * d i) ⬝ᵥ (fun i => a * e i) = a * a * (d ⬝ᵥ e) := by
  simp only [Matrix.dotProduct]
  rw [Finset.mul_sum]
  exact Finset.sum_congr rfl fun i _ => by ring

/-- Claim C5, amended: multiplying all weights by a positive constant `c`
leaves `params` unchanged but multiplies `scale` by `c` (the original claim
said by `1/c`, which the counterexample below refutes). -/
theorem claim5_amended {n k : ℕ} (y : Fin n → ℝ)
    (X : Matrix (Fin n) (Fin k) ℝ) (w : Weights n) (c : ℝ) (hc : 0 < c)
    (cov : Bool) :
    ∃ r r', (_MinimalWLS.init y X w).fit cov "pinv" = .ok r ∧
      (_MinimalWLS.init y X (w.scaleBy c)).fit cov "pinv" = .ok r' ∧
      r'.params = r.params ∧ r'.scale = c * r.scale := by
  have hcne : Real.sqrt c ≠ 0 := ne_of_gt (Real.sqrt_pos.mpr hc)
  have hwX := init_scaleBy_wexog y X w hc.le
  have hwy := init_scaleBy_wendog y X w hc.le
  have hparams : npPinv (_MinimalWLS.init y X (w.scaleBy c)).wexog *ᵥ
      (_MinimalWLS.init y X (w.scaleBy c)).wendog =
      npPinv (_MinimalWLS.init y X w).wexog *ᵥ
      (_MinimalWLS.init y X w).wendog := by
    rw [hwX, hwy, npPinv_smul hcne]
    have hv : (fun i => Real.sqrt c * (_MinimalWLS.init y X w).wendog i) =
        Real.sqrt c • (_MinimalWLS.init y X w).wendog := rfl
    rw [hv, Matrix.smul_mulVec_assoc, Matrix.mulVec_smul_assoc, smul_smul,
      inv_mul_cancel₀ hcne, one_smul]
  refine ⟨_, _,
    fit_of_paramsCov_ok (paramsCov_pinv (_MinimalWLS.init y X w) cov),
    fit_of_paramsCov_ok
      (paramsCov_pinv (_MinimalWLS.init y X (w.scaleBy c)) cov),
    hparams, ?_⟩
  show ((fun i => (_MinimalWLS.init y X (w.scaleBy c)).wendog i -
      ((_MinimalWLS.init y X (w.scaleBy c)).wexog *ᵥ
        (npPinv (_MinimalWLS.init y X (w.scaleBy c)).wexog *ᵥ
          (_MinimalWLS.init y X (w.scaleBy c)).wendog)) i) ⬝ᵥ
      fun i => (_MinimalWLS.init y X (w.scaleBy c)).wendog i -
      ((_MinimalWLS.init y X (w.scaleBy c)).wexog *ᵥ
        (npPinv (_MinimalWLS.init y X (w.scaleBy c)).wexog *ᵥ
          (_MinimalWLS.init y X (w.scaleBy c)).wendog)) i) /
      ((n : ℝ) - (k : ℝ)) = c *
      (((fun i => (_MinimalWLS.init y X w).wendog i -
      ((_MinimalWLS.init y X w).wexog *ᵥ
        (npPinv (_MinimalWLS.init y X w).wexog *ᵥ
          (_MinimalWLS.init y X w).wendog)) i) ⬝ᵥ
      fun i => (_MinimalWLS.init y X w).wendog i -
      ((_MinimalWLS.init y X w).wexog *ᵥ
        (npPinv (_MinimalWLS.init y X w).wexog *ᵥ
          (_MinimalWLS.init y X w).wendog)) i) /
      ((n : ℝ) - (k : ℝ)))
  rw [hparams]
  have hres : (fun i => (_MinimalWLS.init y X (w.scaleBy c)).wendog i -
      ((_MinimalWLS.init y X (w.scaleBy c)).wexog *ᵥ
        (npPinv (_MinimalWLS.init y X w).wexog *ᵥ
          (_MinimalWLS.init y X w).wendog)) i) =
      fun i => Real.sqrt c * ((_MinimalWLS.init y X w).wendog i -
      ((_MinimalWLS.init y X w).wexog *ᵥ
        (npPinv (_MinimalWLS.init y X w).wexog *ᵥ
          (_MinimalWLS.init y X w).wendog)) i) := by
    funext i
    rw [hwX, hwy]
    simp only [Matrix.smul_mulVec_assoc, Pi.smul_apply, smul_eq_mul]
    ring
  rw [hres, dot_mul_left, Real.mul_self_sqrt hc.le, mul_div_assoc]

/-- Witness for the amended C5 at a concrete solver and `c = 4`. -/
theorem claim5_amended_witness : (0 : ℝ) < 4 ∧
    ∃ r r', (_MinimalWLS.init yW xW (.scalar 1)).fit true "pinv" = .ok r ∧
      (_MinimalWLS.init yW xW ((Weights.scalar 1).scaleBy 4)).fit true
        "pinv" = .ok r' ∧
      r'.params = r.params ∧ r'.scale = 4 * r.scale :=
  ⟨by norm_num, claim5_amended yW xW (.scalar 1) 4 (by norm_num) true⟩

/-- Construction with unit scalar weight stores the data unscaled. -/
theorem init_one_wls {n k : ℕ} (y : Fin n → ℝ)
    (X : Matrix (Fin n) (Fin k) ℝ) :
    _MinimalWLS.init y X (.scalar 1) = ⟨y, X, .scalar 1, y, X⟩ := by
  unfold _MinimalWLS.init
  congr 1
  · funext i
    show Real.sqrt 1 * y i = y i
    rw [Real.sqrt_one, one_mul]
  · funext i j
    show Real.sqrt 1 * X i j = X i j
    rw [Real.sqrt_one, one_mul]

/-- Construction of the counterexample solver with weights `4 * 1`. -/
theorem init_four_wls :
    _MinimalWLS.init yW xW ((Weights.scalar 1).scaleBy 4) =
      ⟨yW, xW, (Weights.scalar 1).scaleBy 4, ![0, 4], !![(2 : ℝ); 2]⟩ := by
  have h2 : Real.sqrt ((4 : ℝ) * 1) = 2 := by
    rw [mul_one, show (4 : ℝ) = 2 ^ 2 by norm_num,
      Real.sqrt_sq (by norm_num : (0 : ℝ) ≤ 2)]
  unfold _MinimalWLS.init
  congr 1
  · funext i
    show Real.sqrt ((4 : ℝ) * 1) * yW i = ![(0 : ℝ), 4] i
    rw [h2]
    fin_cases i <;> norm_num [yW]
  · funext i j
    show Real.sqrt ((4 : ℝ) * 1) * xW i j = !![(2 : ℝ); 2] i j
    rw [h2]
    fin_cases i <;> fin_cases j <;> norm_num [xW]

/-- The pseudoinverse of the counterexample design `xW`. -/
theorem npPinv_xW : npPinv xW = !![(1 : ℝ) / 2, 1 / 2] :=
  npPinv_wlsA

/-- The pseudoinverse of the `sqrt 4`-scaled counterexample design. -/
theorem npPinv_two : npPinv !![(2 : ℝ); 2] = !![(1 : ℝ) / 4, 1 / 4] := by
  apply npPinv_eq
  apply isMPInv_of_left_inv
  · ext i j
    fin_cases i
    fin_cases j
    norm_num [Matrix.mul_apply, Fin.sum_univ_succ, Matrix.one_apply]
  · ext i j
    fin_cases i <;> fin_cases j <;>
      norm_num [Matrix.mul_apply, Fin.sum_univ_succ]

/-- Counterexample to C5 as stated: with `y = (0,2)`, `X = (1;1)` and
weights rescaled from `1` to `4·1`, the code yields `scale = 8` where the
original `scale` is `2`; the claim predicted `scale` scaled by `1/4`,
i.e. `1/2`, and `8 ≠ 1/4 · 2`. -/
theorem claim5_counterexample :
    ((_MinimalWLS.init yW xW (.scalar 1)).fit true "pinv").map
      (fun r => r.scale) = .ok 2 ∧
    ((_MinimalWLS.init yW xW ((Weights.scalar 1).scaleBy 4)).fit true
      "pinv").map (fun r => r.scale) = .ok 8 ∧
    ¬((8 : ℝ) = 1 / 4 * 2) := by
  refine ⟨?_, ?_, by norm_num⟩
  · rw [init_one_wls,
      fit_of_paramsCov_ok (paramsCov_pinv (⟨yW, xW, .scalar 1, yW, xW⟩ :
        _MinimalWLS 2 1) true)]
    simp only [Except.map]
    congr 1
    show ((fun i => yW i - (xW *ᵥ (npPinv xW *ᵥ yW)) i) ⬝ᵥ
      fun i => yW i - (xW *ᵥ (npPinv xW *ᵥ yW)) i) /
      (((2 : ℕ) : ℝ) - ((1 : ℕ) : ℝ)) = 2
    rw [npPinv_xW]
    have hp : !![(1 : ℝ) / 2, 1 / 2] *ᵥ yW = ![1] := by
      funext i
      fin_cases i
      norm_num [yW, Matrix.mulVec, Matrix.dotProduct, Fin.sum_univ_succ]
    rw [hp]
    norm_num [yW, xW, Matrix.mulVec, Matrix.dotProduct, Fin.sum_univ_succ]
  · rw [init_four_wls,
      fit_of_paramsCov_ok (paramsCov_pinv (⟨yW, xW,
        (Weights.scalar 1).scaleBy 4, ![0, 4], !![(2 : ℝ); 2]⟩ :
        _MinimalWLS 2 1) true)]
    simp only [Except.map]
    congr 1
    show ((fun i => ![(0 : ℝ), 4] i -
      (!![(2 : ℝ); 2] *ᵥ (npPinv !![(2 : ℝ); 2] *ᵥ ![(0 : ℝ), 4])) i) ⬝ᵥ
      fun i => ![(0 : ℝ), 4] i -
      (!![(2 : ℝ); 2] *ᵥ (npPinv !![(2 : ℝ); 2] *ᵥ ![(0 : ℝ), 4])) i) /
      (((2 : ℕ) : ℝ) - ((1 : ℕ) : ℝ)) = 8
    rw [npPinv_two]
    have hp : !![(1 : ℝ) / 4, 1 / 4] *ᵥ ![(0 : ℝ), 4] = ![1] := by
      funext i
      fin_cases i
      norm_num [Matrix.mulVec, Matrix.dotProduct, Fin.sum_univ_succ]
    rw [hp]
    norm_num [Matrix.mulVec, Matrix.dotProduct, Fin.sum_univ_succ]

/-- The pseudoinverse of the spec's concrete 3×2 design. -/
theorem npPinv_xSix :
    npPinv xSix = !![(5 : ℝ) / 6, 1 / 3, -(1 / 6); -(1 / 2), 0, 1 / 2] := by
  apply npPinv_eq
  apply isMPInv_of_left_inv
  · ext i j
    fin_cases i <;> fin_cases j <;>
      norm_num [xSix, Matrix.mul_apply, Fin.sum_univ_succ, Matrix.one_apply]
  · ext i j
    fin_cases i <;> fin_cases j <;>
      norm_num [xSix, Matrix.mul_apply, Fin.sum_univ_succ]

/-- The concrete-scenario coefficients: `pinv(X) · y = (7/6, 1/2)`. -/
theorem pinv_xSix_apply : npPinv xSix *ᵥ ySix = ![(7 : ℝ) / 6, 1 / 2] := by
  rw [npPinv_xSix]
  funext i
  fin_cases i <;>
    norm_num [ySix, Matrix.mulVec, Matrix.dotProduct, Fin.sum_univ_succ]

/-- Projected params of the concrete-scenario fit. -/
theorem fit6_params :
    ((_MinimalWLS.init ySix xSix (.scalar 1)).fit true "pinv").map
      (fun r => r.params) = .ok ![(7 : ℝ) / 6, 1 / 2] := by
  rw [init_one_wls,
    fit_of_paramsCov_ok (paramsCov_pinv (⟨ySix, xSix, .scalar 1, ySix,
      xSix⟩ : _MinimalWLS 3 2) true)]
  simp only [Except.map]
  congr 1
  exact pinv_xSix_apply

/-- Projected fitted values of the concrete-scenario fit. -/
theorem fit6_fitted :
    ((_MinimalWLS.init ySix xSix (.scalar 1)).fit true "pinv").map
      (fun r => r.fittedvalues) = .ok ![(7 : ℝ) / 6, 5 / 3, 13 / 6] := by
  rw [init_one_wls,
    fit_of_paramsCov_ok (paramsCov_pinv (⟨ySix, xSix, .scalar 1, ySix,
      xSix⟩ : _MinimalWLS 3 2) true)]
  simp only [Except.map]
  congr 1
  show xSix *ᵥ (npPinv xSix *ᵥ ySix) = ![(7 : ℝ) / 6, 5 / 3, 13 / 6]
  rw [pinv_xSix_apply]
  funext i
  fin_cases i <;>
    norm_num [xSix, Matrix.mulVec, Matrix.dotProduct, Fin.sum_univ_succ]

/-- Projected residuals of the concrete-scenario fit. -/
theorem fit6_resid :
    ((_MinimalWLS.init ySix xSix (.scalar 1)).fit true "pinv").map
      (fun r => r.resid) = .ok ![-(1 : ℝ) / 6, 1 / 3, -(1 / 6)] := by
  rw [init_one_wls,
    fit_of_paramsCov_ok (paramsCov_pinv (⟨ySix, xSix, .scalar 1, ySix,
      xSix⟩ : _MinimalWLS 3 2) true)]
  simp only [Except.map]
  congr 1
  show (fun i => ySix i - (xSix *ᵥ (npPinv xSix *ᵥ ySix)) i) =
    ![-(1 : ℝ) / 6, 1 / 3, -(1 / 6)]
  rw [pinv_xSix_apply]
  funext i
  fin_cases i <;>
    norm_num [ySix, xSix, Matrix.mulVec, Matrix.dotProduct,
      Fin.sum_univ_succ]

/-- Claim C6, amended: for `X = [[1,0],[1,1],[1,2]]`, `y = [1,2,2]`,
weights `1.0`, the pinv fit gives `params = (7/6, 1/2)`,
`fitted_values = (7/6, 5/3, 13/6)` and `residuals = (-1/6, 1/3, -1/6)`
(exact OLS; the values `params ≈ (1.0, 0.5)` etc. stated in the claim are
arithmetically wrong for this data). -/
theorem claim6_amended :
    ((_MinimalWLS.init ySix xSix (.scalar 1)).fit true "pinv").map
      (fun r => r.params) = .ok ![(7 : ℝ) / 6, 1 / 2] ∧
    ((_MinimalWLS.init ySix xSix (.scalar 1)).fit true "pinv").map
      (fun r => r.fittedvalues) = .ok ![(7 : ℝ) / 6, 5 / 3, 13 / 6] ∧
    ((_MinimalWLS.init ySix xSix (.scalar 1)).fit true "pinv").map
      (fun r => r.resid) = .ok ![-(1 : ℝ) / 6, 1 / 3, -(1 / 6)] :=
  ⟨fit6_params, fit6_fitted, fit6_resid⟩

/-- Counterexample to C6 as stated: the fit params are `(7/6, 1/2)`, not
`(1, 1/2)`; the first coefficient is off by `1/6`, far beyond any
floating-point tolerance. -/
theorem claim6_counterexample :
    ((_MinimalWLS.init ySix xSix (.scalar 1)).fit true "pinv").map
      (fun r => r.params) = .ok ![(7 : ℝ) / 6, 1 / 2] ∧
    ![(7 : ℝ) / 6, 1 / 2] ≠ ![1, 1 / 2] ∧
    1 / 1000 < |(7 : ℝ) / 6 - 1| := by
  refine ⟨fit6_params, ?_, ?_⟩
  · intro h
    have h0 := congrFun h 0
    norm_num at h0
  · rw [show (7 : ℝ) / 6 - 1 = 1 / 6 by norm_num,
      abs_of_pos (by norm_num : (0 : ℝ) < 1 / 6)]
    norm_num

/-- Claim C8, amended: the constructor performs no validation of its own.
Scalar weights (of any sign) never fail, whatever the shapes of `y` and
`X`; vector weights (of any sign, including negative) never fail when
their length matches `y` and the rows of `X`.  Negative weights thus never
raise — they merely produce meaningless numerics.  A vector-weight length
mismatch, however, is rejected by the underlying broadcast primitive (see
the counterexample), which is what the original claim ruled out. -/
theorem claim8_amended :
    (∀ (endog : List ℝ) (exog : List (List ℝ)) (c : ℝ),
      (npInitWLS endog exog (.scalar c)).isSome = true) ∧
    (∀ (endog : List ℝ) (exog : List (List ℝ)) (w : List ℝ),
      w.length = endog.length → w.length = exog.length →
      (npInitWLS endog exog (.vector w)).isSome = true) := by
  constructor
  · intro endog exog c
    rfl
  · intro endog exog w h1 h2
    have h3 : endog.length = exog.length := h1.symm.trans h2
    simp [npInitWLS, bmul1, bmulCol, List.length_map, h1, h2, h3]

/-- Witness for the amended C8: negative vector weights of matching length
construct successfully. -/
theorem claim8_amended_witness :
    [(-1 : ℝ), -4].length = [(1 : ℝ), 2].length ∧
    [(-1 : ℝ), -4].length = [[(1 : ℝ)], [1]].length ∧
    (npInitWLS [(1 : ℝ), 2] [[(1 : ℝ)], [1]]
      (.vector [-1, -4])).isSome = true :=
  ⟨rfl, rfl, claim8_amended.2 [(1 : ℝ), 2] [[(1 : ℝ)], [1]] [-1, -4] rfl rfl⟩

/-- Counterexample to C8 as stated: a weight vector of length 2 against a
response of length 3 makes the underlying broadcast multiply fail, so
construction does not complete. -/
theorem claim8_counterexample :
    npInitWLS [(1 : ℝ), 2, 3] [[(1 : ℝ)], [1], [1]] (.vector [1, 2]) =
      none := by
  simp [npInitWLS, bmul1, List.length_map]
